import Mathlib

/-!
Verification development for the release-curve analysis tool (`release.py`).

The numeric core of the program is embedded shallowly:
* a table cell that may fail numeric coercion (`pd.to_numeric(..., errors='coerce')`)
  is a `Cell := Option ℚ` (`none` = unparseable, coerced to NaN);
* IEEE-double special values produced by the pipeline (division by a zero slope,
  NaN coercion results) are modelled by `FVal`, rationals extended with
  `inf`, `ninf` and `nan`, with the IEEE arithmetic rules on them
  (exact rational arithmetic stands in for finite doubles);
* `scipy.stats.linregress` is modelled by its closed-form least-squares
  formulas over exact rationals, returning `none` exactly where scipy raises
  `ValueError` (empty input, mismatched lengths, all x identical).
-/

namespace ReleaseData

/-- A raw table cell after `pd.to_numeric(..., errors='coerce')`:
`some q` when the cell parses to the number `q`, `none` when coercion fails. -/
abbrev Cell := Option ℚ

/-- Extended value: a finite double (modelled exactly as a rational), `+inf`,
`-inf`, or NaN.  This is the value space for the concentration pipeline of
lines 83-88 of `release.py`. -/
inductive FVal where
  | fin (q : ℚ)
  | inf
  | ninf
  | nan
  deriving DecidableEq, Repr

/-- Result of `pd.to_numeric(cell, errors='coerce')`: the number, or NaN. -/
def toNumeric (c : Cell) : FVal :=
  match c with
  | some q => .fin q
  | none => .nan

/-- IEEE addition on extended values (exact on finite ones). -/
def FVal.add : FVal → FVal → FVal
  | .nan, _ => .nan
  | _, .nan => .nan
  | .inf, .ninf => .nan
  | .ninf, .inf => .nan
  | .inf, _ => .inf
  | _, .inf => .inf
  | .ninf, _ => .ninf
  | _, .ninf => .ninf
  | .fin a, .fin b => .fin (a + b)

/-- IEEE subtraction on extended values (exact on finite ones). -/
def FVal.sub : FVal → FVal → FVal
  | .nan, _ => .nan
  | _, .nan => .nan
  | .inf, .inf => .nan
  | .ninf, .ninf => .nan
  | .inf, _ => .inf
  | _, .inf => .ninf
  | .ninf, _ => .ninf
  | _, .ninf => .inf
  | .fin a, .fin b => .fin (a - b)

/-- IEEE multiplication on extended values (exact on finite ones). -/
def FVal.mul : FVal → FVal → FVal
  | .nan, _ => .nan
  | _, .nan => .nan
  | .inf, .inf => .inf
  | .inf, .ninf => .ninf
  | .ninf, .inf => .ninf
  | .ninf, .ninf => .inf
  | .inf, .fin b => if 0 < b then .inf else if b < 0 then .ninf else .nan
  | .fin a, .inf => if 0 < a then .inf else if a < 0 then .ninf else .nan
  | .ninf, .fin b => if 0 < b then .ninf else if b < 0 then .inf else .nan
  | .fin a, .ninf => if 0 < a then .ninf else if a < 0 then .inf else .nan
  | .fin a, .fin b => .fin (a * b)

/-- IEEE division on extended values.  Dividing a nonzero finite value by zero
yields a signed infinity, `0/0` yields NaN — this is exactly what numpy does
at line 83 of `release.py` when the fitted slope is `0.0`. -/
def FVal.div : FVal → FVal → FVal
  | .nan, _ => .nan
  | _, .nan => .nan
  | .inf, .inf => .nan
  | .inf, .ninf => .nan
  | .ninf, .inf => .nan
  | .ninf, .ninf => .nan
  | .inf, .fin b => if 0 ≤ b then .inf else .ninf
  | .ninf, .fin b => if 0 ≤ b then .ninf else .inf
  | .fin _, .inf => .fin 0
  | .fin _, .ninf => .fin 0
  | .fin a, .fin b =>
      if b = 0 then (if 0 < a then .inf else if a < 0 then .ninf else .nan)
      else .fin (a / b)

/-- Python's `max(0.0, x)` (line 84 of `release.py`): returns `x` only when
`x > 0.0` is true, so NaN (every comparison false) and `-inf` both give `0.0`,
while `+inf` is kept. -/
def FVal.pymax : FVal → FVal
  | .fin q => if 0 < q then .fin q else .fin 0
  | .inf => .inf
  | .ninf => .fin 0
  | .nan => .fin 0

/-- IEEE `≤` on extended values: NaN is incomparable with everything. -/
def FVal.Fle : FVal → FVal → Prop
  | .nan, _ => False
  | _, .nan => False
  | .ninf, _ => True
  | _, .ninf => False
  | .fin a, .fin b => a ≤ b
  | _, .inf => True
  | .inf, .fin _ => False

instance : DecidableRel FVal.Fle := by
  intro a b
  cases a <;> cases b <;> simp only [FVal.Fle] <;> infer_instance

/-- An extended value that is zero or positive (a finite nonnegative rational,
or `+inf`).  Every value produced by the clamp of line 84 satisfies this. -/
def FVal.Nonneg : FVal → Prop
  | .fin q => 0 ≤ q
  | .inf => True
  | .ninf => False
  | .nan => False

/-- Concentration column of line 44: `pd.to_numeric(...).dropna()` on the
concentration column alone — each unparseable cell is dropped from this
column independently of the state of the paired absorbance cell. -/
def x_std (rows : List (Cell × Cell)) : List ℚ :=
  rows.filterMap Prod.fst

/-- Absorbance column of line 45: `pd.to_numeric(...).dropna()` on the
absorbance column alone. -/
def y_std (rows : List (Cell × Cell)) : List ℚ :=
  rows.filterMap Prod.snd

/-- The calibration points both of whose cells parse, with the pairing of the
input rows kept.  This is the "valid point" notion of the specification
(section 3 and 4.1); the program itself never computes it. -/
def valid_points (rows : List (Cell × Cell)) : List (ℚ × ℚ) :=
  rows.filterMap fun r =>
    match r with
    | (some x, some y) => some (x, y)
    | _ => none

/-- The scaled variance `n·Σa² − (Σa)²` of a list: the denominator of the
least-squares slope (`n²` times the variance scipy computes via `np.cov`). -/
def dxQ (l : List ℚ) : ℚ :=
  (l.length : ℚ) * (l.map fun a => a * a).sum - l.sum * l.sum

/-- The scaled covariance `n·Σxy − Σx·Σy` of two paired lists: `n²` times the
covariance scipy computes. -/
def dxyQ (xs ys : List ℚ) : ℚ :=
  (xs.length : ℚ) * ((xs.zip ys).map fun p => p.1 * p.2).sum - xs.sum * ys.sum

/-- The least-squares slope scipy computes (`ssxym / ssxm`). -/
def slopeOf (xs ys : List ℚ) : ℚ :=
  dxyQ xs ys / dxQ xs

/-- The least-squares intercept scipy computes (`ymean − slope·xmean`). -/
def interceptOf (xs ys : List ℚ) : ℚ :=
  (ys.sum - slopeOf xs ys * xs.sum) / (xs.length : ℚ)

/-- The squared correlation coefficient scipy reports: `0` when either
variance vanishes, otherwise the square of `r` clamped to `[-1, 1]`. -/
def r2Of (xs ys : List ℚ) : ℚ :=
  if dxQ xs = 0 ∨ dxQ ys = 0 then 0
  else min 1 (dxyQ xs ys * dxyQ xs ys / (dxQ xs * dxQ ys))

/-- Model of `scipy.stats.linregress(xs, ys)` (line 48): the closed-form
ordinary-least-squares slope and intercept and the clamped squared correlation
coefficient, over exact rationals.  `none` models the cases where scipy raises
`ValueError`: an empty input, inputs whose lengths disagree (the shapes cannot
be broadcast), and more than one point with all x values identical.  (With
one single point scipy instead produces NaN from `0/0`; that corner is
unreachable from `fitStd`, which requires at least two x cells, and no claim
touches it — there the rational model returns `dxyQ/0 = 0`.) -/
def linregress (xs ys : List ℚ) : Option (ℚ × ℚ × ℚ) :=
  if xs.length = 0 ∨ ys.length = 0 then none
  else if xs.length ≠ ys.length then none
  else if 1 < xs.length ∧ ∀ a ∈ xs, a = xs.headI then none
  else some (slopeOf xs ys, interceptOf xs ys, r2Of xs ys)

/-- Outcome of the standard-curve block, lines 47-61. -/
inductive FitOutcome where
  | fitted (slope intercept r_squared : ℚ)
  | fallback
  | valueError
  deriving DecidableEq, Repr

/-- Lines 47-61 of `release.py`: if the concentration column alone has at
least two parseable cells, `linregress` is called on the two independently
filtered columns (raising `ValueError` when their lengths disagree);
otherwise a warning is shown and the fallback `slope, intercept = 1.0, 0.0`
is assigned. -/
def fitStd (rows : List (Cell × Cell)) : FitOutcome :=
  if 2 ≤ (x_std rows).length then
    match linregress (x_std rows) (y_std rows) with
    | some (m, b, r2) => .fitted m b r2
    | none => .valueError
  else .fallback

/-- The slope variable in scope after lines 47-61 (`none` when the block
raised). -/
def FitOutcome.slopeVar : FitOutcome → Option ℚ
  | .fitted m _ _ => some m
  | .fallback => some 1
  | .valueError => none

/-- The intercept variable in scope after lines 47-61. -/
def FitOutcome.interceptVar : FitOutcome → Option ℚ
  | .fitted _ b _ => some b
  | .fallback => some 0
  | .valueError => none

/-- Line 83 applied to one absorbance cell: the raw (unclamped) concentration
`(pd.to_numeric(a) - intercept) / slope` in extended-value arithmetic. -/
def resolveRaw (a : Cell) (slope intercept : ℚ) : FVal :=
  FVal.div (FVal.sub (toNumeric a) (FVal.fin intercept)) (FVal.fin slope)

/-- Lines 83-84 applied to one absorbance cell: the raw concentration followed
by the clamp `max(0.0, x)`. -/
def resolveClamped (a : Cell) (slope intercept : ℚ) : FVal :=
  FVal.pymax (resolveRaw a slope intercept)

/-- Lines 83-84 on a whole absorbance column: the concentration series. -/
def concs (cells : List Cell) (slope intercept : ℚ) : List FVal :=
  cells.map fun a => resolveClamped a slope intercept

/-- The fixed sample volume of line 86. -/
def sample_volume : ℚ := 25

/-- Line 87: `amount_released = concs * sample_volume`, elementwise. -/
def amount_released (cells : List Cell) (slope intercept v : ℚ) : List FVal :=
  (concs cells slope intercept).map fun c => FVal.mul c (FVal.fin v)

/-- Running sum with accumulator, with the pandas `cumsum` NaN policy
(`skipna=True`, the default): a NaN entry stays NaN in the output and leaves
the accumulator untouched. -/
def cumsumFrom (acc : FVal) : List FVal → List FVal
  | [] => []
  | .nan :: as => .nan :: cumsumFrom acc as
  | a :: as => FVal.add acc a :: cumsumFrom (FVal.add acc a) as

/-- The accumulator value after a running sum over a list, skipping NaN
entries (proof support for `cumsumFrom`). -/
def skipFold (acc : FVal) : List FVal → FVal
  | [] => acc
  | .nan :: as => skipFold acc as
  | a :: as => skipFold (FVal.add acc a) as

/-- Line 88: `cumulative_release = amount_released.cumsum()`. -/
def cumsum (l : List FVal) : List FVal :=
  cumsumFrom (FVal.fin 0) l

/-- Line 88 on a whole absorbance column. -/
def cumulative_release (cells : List Cell) (slope intercept v : ℚ) : List FVal :=
  cumsum (amount_released cells slope intercept v)

/-- One row of the `result_df` of lines 90-96: the raw time and absorbance
cells carried over from `df_edit`, plus the three computed columns. -/
structure ReleaseRecord where
  time : Cell
  absorbance : Cell
  concentration : FVal
  amount : FVal
  cumulative : FVal
  deriving DecidableEq, Repr

/-- Row-wise assembly of the five columns of `result_df`. -/
def resultRows : List (Cell × Cell) → List FVal → List FVal → List FVal →
    List ReleaseRecord
  | (t, a) :: rs, c :: cs, am :: ams, cu :: cus =>
      ⟨t, a, c, am, cu⟩ :: resultRows rs cs ams cus
  | _, _, _, _ => []

/-- Lines 90-96 of `release.py`: the per-sample result table, built from the
raw `df_edit` rows (time cell, absorbance cell) and the three computed
series.  The time and absorbance columns are the raw input columns, not the
coerced ones. -/
def result_df (rows : List (Cell × Cell)) (slope intercept v : ℚ) :
    List ReleaseRecord :=
  resultRows rows
    (concs (rows.map Prod.snd) slope intercept)
    (amount_released (rows.map Prod.snd) slope intercept v)
    (cumulative_release (rows.map Prod.snd) slope intercept v)

/-- Line 99 / line 69: the label attached to sample `i` (0-based) is the
string `"Sample " ++ toString (i+1)`. -/
def sampleLabel (i : ℕ) : String :=
  "Sample " ++ toString (i + 1)

/-- The `all_cumulative` list of lines 71-99: one `(label, result table)`
pair per sample, with the label determined by the sample's position. -/
def all_cumulative (tables : List (List (Cell × Cell)))
    (slope intercept v : ℚ) : List (String × List ReleaseRecord) :=
  (List.range tables.length).map fun i =>
    (sampleLabel i, result_df (tables.getD i []) slope intercept v)

/-- Lines 111-122 of `release.py`: when more than one sample is present the
comparative plot consumes every `(label, table)` pair of the assembled list
unchanged; no label validation of any kind is performed. -/
def comparativePlot (all : List (String × List ReleaseRecord)) :
    Option (List (String × List ReleaseRecord)) :=
  if 1 < all.length then some all else none

/-- Sum of squared residuals of the line `y = m*x + b` over the paired
points, the quantity ordinary least squares minimizes. -/
def SSR (xs ys : List ℚ) (m b : ℚ) : ℚ :=
  ((xs.zip ys).map fun p => (p.2 - (m * p.1 + b)) * (p.2 - (m * p.1 + b))).sum

/-- Modelled from the spec (section 4.3, edge case): aggregation after
excluding from the sequence every reading whose absorbance fails numeric
parsing.  This follows the spec's words and exists only to be compared with
`result_df`, which is what the code actually does. -/
def aggregateExcludedSpec (rows : List (Cell × Cell)) (slope intercept v : ℚ) :
    List ReleaseRecord :=
  result_df (rows.filter fun r => r.2.isSome) slope intercept v

/-! ### Basic lemmas about the extended values and the pipeline columns -/

theorem FVal.add_fin_zero (x : FVal) : FVal.add x (FVal.fin 0) = x := by
  cases x <;> simp [FVal.add]

theorem concs_length (cells : List Cell) (m b : ℚ) :
    (concs cells m b).length = cells.length := by
  simp [concs]

theorem amount_released_length (cells : List Cell) (m b v : ℚ) :
    (amount_released cells m b v).length = cells.length := by
  simp [amount_released, concs]

theorem cumsumFrom_length (l : List FVal) : ∀ acc, (cumsumFrom acc l).length = l.length := by
  induction l with
  | nil => intro acc; simp [cumsumFrom]
  | cons a as ih => intro acc; cases a <;> simp [cumsumFrom, ih]

theorem cumulative_release_length (cells : List Cell) (m b v : ℚ) :
    (cumulative_release cells m b v).length = cells.length := by
  simp [cumulative_release, cumsum, cumsumFrom_length, amount_released_length]

theorem cumsumFrom_append (l1 l2 : List FVal) :
    ∀ acc, cumsumFrom acc (l1 ++ l2)
      = cumsumFrom acc l1 ++ cumsumFrom (skipFold acc l1) l2 := by
  induction l1 with
  | nil => intro acc; simp [cumsumFrom, skipFold]
  | cons a as ih => intro acc; cases a <;> simp [cumsumFrom, skipFold, ih]

theorem resultRows_map_timeAbs :
    ∀ (rows : List (Cell × Cell)) (cs ams cus : List FVal),
      rows.length ≤ cs.length → rows.length ≤ ams.length → rows.length ≤ cus.length →
      (resultRows rows cs ams cus).map (fun r => (r.time, r.absorbance)) = rows := by
  intro rows
  induction rows with
  | nil => intro cs ams cus _ _ _; simp [resultRows]
  | cons r rs ih =>
      rintro (_ | ⟨c, cs⟩) ams cus h1 h2 h3
      · simp at h1
      · rcases ams with _ | ⟨am, ams⟩
        · simp at h2
        · rcases cus with _ | ⟨cu, cus⟩
          · simp at h3
          · obtain ⟨t, a⟩ := r
            simp only [List.length_cons, Nat.succ_le_succ_iff] at h1 h2 h3
            simp [resultRows, ih cs ams cus h1 h2 h3]

theorem resultRows_map_conc :
    ∀ (rows : List (Cell × Cell)) (cs ams cus : List FVal),
      rows.length = cs.length → rows.length ≤ ams.length → rows.length ≤ cus.length →
      (resultRows rows cs ams cus).map ReleaseRecord.concentration = cs := by
  intro rows
  induction rows with
  | nil =>
      rintro (_ | ⟨c, cs⟩) ams cus h1 _ _
      · simp [resultRows]
      · simp at h1
  | cons r rs ih =>
      rintro (_ | ⟨c, cs⟩) ams cus h1 h2 h3
      · simp at h1
      · rcases ams with _ | ⟨am, ams⟩
        · simp at h2
        · rcases cus with _ | ⟨cu, cus⟩
          · simp at h3
          · obtain ⟨t, a⟩ := r
            simp only [List.length_cons, Nat.succ_le_succ_iff, Nat.succ_inj] at h1 h2 h3
            simp [resultRows, ih cs ams cus h1 h2 h3]

theorem resultRows_map_amount :
    ∀ (rows : List (Cell × Cell)) (cs ams cus : List FVal),
      rows.length ≤ cs.length → rows.length = ams.length → rows.length ≤ cus.length →
      (resultRows rows cs ams cus).map ReleaseRecord.amount = ams := by
  intro rows
  induction rows with
  | nil =>
      rintro cs (_ | ⟨am, ams⟩) cus _ h2 _
      · simp [resultRows]
      · simp at h2
  | cons r rs ih =>
      rintro (_ | ⟨c, cs⟩) ams cus h1 h2 h3
      · simp at h1
      · rcases ams with _ | ⟨am, ams⟩
        · simp at h2
        · rcases cus with _ | ⟨cu, cus⟩
          · simp at h3
          · obtain ⟨t, a⟩ := r
            simp only [List.length_cons, Nat.succ_le_succ_iff, Nat.succ_inj] at h1 h2 h3
            simp [resultRows, ih cs ams cus h1 h2 h3]

theorem resultRows_map_cumulative :
    ∀ (rows : List (Cell × Cell)) (cs ams cus : List FVal),
      rows.length ≤ cs.length → rows.length ≤ ams.length → rows.length = cus.length →
      (resultRows rows cs ams cus).map ReleaseRecord.cumulative = cus := by
  intro rows
  induction rows with
  | nil =>
      rintro cs ams (_ | ⟨cu, cus⟩) _ _ h3
      · simp [resultRows]
      · simp at h3
  | cons r rs ih =>
      rintro (_ | ⟨c, cs⟩) ams cus h1 h2 h3
      · simp at h1
      · rcases ams with _ | ⟨am, ams⟩
        · simp at h2
        · rcases cus with _ | ⟨cu, cus⟩
          · simp at h3
          · obtain ⟨t, a⟩ := r
            simp only [List.length_cons, Nat.succ_le_succ_iff, Nat.succ_inj] at h1 h2 h3
            simp [resultRows, ih cs ams cus h1 h2 h3]

theorem result_df_map_timeAbs (rows : List (Cell × Cell)) (m b v : ℚ) :
    (result_df rows m b v).map (fun r => (r.time, r.absorbance)) = rows := by
  apply resultRows_map_timeAbs <;>
    simp [concs_length, amount_released_length, cumulative_release_length]

theorem result_df_length (rows : List (Cell × Cell)) (m b v : ℚ) :
    (result_df rows m b v).length = rows.length := by
  have h := congrArg List.length (result_df_map_timeAbs rows m b v)
  simpa using h

theorem result_df_map_conc (rows : List (Cell × Cell)) (m b v : ℚ) :
    (result_df rows m b v).map ReleaseRecord.concentration
      = concs (rows.map Prod.snd) m b := by
  apply resultRows_map_conc <;>
    simp [concs_length, amount_released_length, cumulative_release_length]

theorem result_df_map_amount (rows : List (Cell × Cell)) (m b v : ℚ) :
    (result_df rows m b v).map ReleaseRecord.amount
      = amount_released (rows.map Prod.snd) m b v := by
  apply resultRows_map_amount <;>
    simp [concs_length, amount_released_length, cumulative_release_length]

theorem result_df_map_cumulative (rows : List (Cell × Cell)) (m b v : ℚ) :
    (result_df rows m b v).map ReleaseRecord.cumulative
      = cumulative_release (rows.map Prod.snd) m b v := by
  apply resultRows_map_cumulative <;>
    simp [concs_length, amount_released_length, cumulative_release_length]

theorem get_append_cons_length {α : Type} :
    ∀ (l1 : List α) (a : α) (l2 : List α), (l1 ++ a :: l2).get? l1.length = some a := by
  intro l1 a l2
  induction l1 with
  | nil => rfl
  | cons x xs ih => simpa using ih

theorem eraseIdx_append_length {α : Type} :
    ∀ (l1 : List α) (a : α) (l2 : List α), (l1 ++ a :: l2).eraseIdx l1.length = l1 ++ l2 := by
  intro l1 a l2
  induction l1 with
  | nil => rfl
  | cons x xs ih => simpa [List.eraseIdx] using ih

/-! ### Claims -/

/-- C1: the claim says a zero-slope calibration must signal
`DegenerateCalibration` and never let an infinite or NaN concentration
propagate.  The code has no such condition: the calibration points
`(0, 0.5), (10, 0.5)` fit to slope `0`, intercept `1/2`, and then an
absorbance of `1` yields the concentration `(1 − 1/2)/0 = +inf`, which the
clamp keeps and which propagates into `amount_released` and
`cumulative_release`. -/
theorem C1_zero_slope_propagates_infinity :
    fitStd [(some 0, some (1/2)), (some 10, some (1/2))]
        = FitOutcome.fitted 0 (1/2) 0
    ∧ concs [some 1] 0 (1/2) = [FVal.inf]
    ∧ cumulative_release [some 1] 0 (1/2) 25 = [FVal.inf] := by
  refine ⟨?_, ?_, ?_⟩
  · norm_num [fitStd, x_std, y_std, linregress, slopeOf, interceptOf, r2Of, dxQ, dxyQ,
      List.headI, List.filterMap]
  · norm_num [concs, resolveClamped, resolveRaw, toNumeric, FVal.sub, FVal.div, FVal.pymax]
  · norm_num [cumulative_release, cumsum, cumsumFrom, amount_released, concs,
      resolveClamped, resolveRaw, toNumeric, FVal.sub, FVal.div, FVal.pymax, FVal.mul,
      FVal.add]

/-- C2: the claim says that with fewer than 2 valid points the fit falls
back to `(1.0, 0.0)` and signals `InsufficientData`.  On the table
`[(1, 0.5), (2, <unparseable>)]` there is exactly one valid point, yet the
code — which gates only on the concentration column — calls `linregress`
with two concentrations and one absorbance, raising `ValueError` instead of
falling back. -/
theorem C2_one_valid_point_raises_instead_of_fallback :
    (valid_points [(some 1, some (1/2)), (some 2, none)]).length = 1
    ∧ fitStd [(some 1, some (1/2)), (some 2, none)] = FitOutcome.valueError := by
  refine ⟨?_, ?_⟩
  · norm_num [valid_points, List.filterMap]
  · norm_num [fitStd, x_std, y_std, linregress, List.filterMap]

/-- C3: the claim says unparseable calibration points are dropped as whole
pairs before fitting.  On the table
`[(<bad>, 0.1), (1, <bad>), (2, 0.3)]` the only valid whole point is
`(2, 0.3)`, yet the code drops cells per column independently and fits a
line through the mispaired phantom points `(1, 0.1)` and `(2, 0.3)`,
producing slope `1/5`, intercept `-1/10`, r² `1`. -/
theorem C3_per_column_drop_mispairs_points :
    valid_points [(none, some (1/10)), (some 1, none), (some 2, some (3/10))]
        = [(2, 3/10)]
    ∧ fitStd [(none, some (1/10)), (some 1, none), (some 2, some (3/10))]
        = FitOutcome.fitted (1/5) (-1/10) 1 := by
  refine ⟨?_, ?_⟩
  · norm_num [valid_points, List.filterMap]
  · norm_num [fitStd, x_std, y_std, linregress, slopeOf, interceptOf, r2Of, dxQ, dxyQ,
      List.headI, List.filterMap]

/-- C4 counterexample: the claim says a reading with unparseable absorbance
is excluded from the sequence before aggregation.  On the sample rows
`[(0, 0.5), (1, <bad>), (2, 1)]` the code's result table differs from the
spec-described exclude-then-aggregate result: the code keeps all three rows
(the bad row resolves to concentration 0), the spec-side table has two. -/
theorem C4_counterexample_row_not_excluded :
    result_df [(some 0, some (1/2)), (some 1, none), (some 2, some 1)] 1 0 25
      ≠ aggregateExcludedSpec
          [(some 0, some (1/2)), (some 1, none), (some 2, some 1)] 1 0 25 := by
  intro h
  have hlen := congrArg List.length h
  rw [result_df_length, aggregateExcludedSpec, result_df_length] at hlen
  simp [List.filter] at hlen

/-- C4 (amended): a reading whose absorbance fails numeric parsing is
retained in the sequence — its coerced NaN resolves, after the
`max(0.0, ·)` clamp, to concentration `0`, hence amount `0` — and it
contributes nothing: erasing its row from the amount and cumulative columns
yields exactly the columns computed from the other readings in their
original order. -/
theorem C4_amended_row_retained_with_zero_contribution
    (m b v : ℚ) (t : Cell) (pre post : List (Cell × Cell)) :
    (result_df (pre ++ (t, none) :: post) m b v).map (fun r => (r.time, r.absorbance))
        = pre ++ (t, none) :: post
    ∧ ((result_df (pre ++ (t, none) :: post) m b v).map ReleaseRecord.concentration).get?
        pre.length = some (FVal.fin 0)
    ∧ ((result_df (pre ++ (t, none) :: post) m b v).map ReleaseRecord.amount).eraseIdx
        pre.length = (result_df (pre ++ post) m b v).map ReleaseRecord.amount
    ∧ ((result_df (pre ++ (t, none) :: post) m b v).map ReleaseRecord.cumulative).eraseIdx
        pre.length = (result_df (pre ++ post) m b v).map ReleaseRecord.cumulative := by
  have hsnd : (pre ++ (t, none) :: post).map Prod.snd
      = pre.map Prod.snd ++ none :: post.map Prod.snd := by simp
  have hsnd2 : (pre ++ post).map Prod.snd
      = pre.map Prod.snd ++ post.map Prod.snd := by simp
  have hconc : concs ((pre ++ (t, none) :: post).map Prod.snd) m b
      = concs (pre.map Prod.snd) m b ++ FVal.fin 0 :: concs (post.map Prod.snd) m b := by
    rw [hsnd]; simp [concs]; rfl
  have hamt : amount_released ((pre ++ (t, none) :: post).map Prod.snd) m b v
      = amount_released (pre.map Prod.snd) m b v
        ++ FVal.fin 0 :: amount_released (post.map Prod.snd) m b v := by
    simp only [amount_released, hconc]
    simp [FVal.mul]
  have hlenc : pre.length = (concs (pre.map Prod.snd) m b).length := by
    simp [concs_length]
  have hlena : pre.length = (amount_released (pre.map Prod.snd) m b v).length := by
    simp [amount_released_length]
  refine ⟨result_df_map_timeAbs _ m b v, ?_, ?_, ?_⟩
  · rw [result_df_map_conc, hconc, hlenc, get_append_cons_length]
  · rw [result_df_map_amount, hamt, hlena, eraseIdx_append_length,
      result_df_map_amount, hsnd2]
    simp [amount_released, concs]
  · rw [result_df_map_cumulative, result_df_map_cumulative]
    unfold cumulative_release
    rw [hamt, hsnd2]
    have hamt2 : amount_released (pre.map Prod.snd ++ post.map Prod.snd) m b v
        = amount_released (pre.map Prod.snd) m b v
          ++ amount_released (post.map Prod.snd) m b v := by
      simp [amount_released, concs]
    rw [hamt2]
    unfold cumsum
    rw [cumsumFrom_append, cumsumFrom_append]
    have hzero : cumsumFrom (skipFold (FVal.fin 0) (amount_released (pre.map Prod.snd) m b v))
        (FVal.fin 0 :: amount_released (post.map Prod.snd) m b v)
        = skipFold (FVal.fin 0) (amount_released (pre.map Prod.snd) m b v)
          :: cumsumFrom (skipFold (FVal.fin 0) (amount_released (pre.map Prod.snd) m b v))
            (amount_released (post.map Prod.snd) m b v) := by
      simp [cumsumFrom, FVal.add_fin_zero]
    rw [hzero]
    have hlencu : pre.length
        = (cumsumFrom (FVal.fin 0) (amount_released (pre.map Prod.snd) m b v)).length := by
      simp [cumsumFrom_length, amount_released_length]
    rw [hlencu, eraseIdx_append_length]

theorem FVal.pymax_nonneg (x : FVal) : (FVal.pymax x).Nonneg := by
  cases x with
  | fin q => by_cases h : 0 < q <;> simp [FVal.pymax, FVal.Nonneg, h, le_of_lt]
  | inf => simp [FVal.pymax, FVal.Nonneg]
  | ninf => simp [FVal.pymax, FVal.Nonneg]
  | nan => simp [FVal.pymax, FVal.Nonneg]

theorem FVal.Nonneg.ne_nan {x : FVal} (h : x.Nonneg) : x ≠ FVal.nan := by
  cases x <;> simp_all [FVal.Nonneg]

theorem FVal.nonneg_add {s a : FVal} (hs : s.Nonneg) (ha : a.Nonneg) :
    (FVal.add s a).Nonneg := by
  cases s <;> cases a <;> simp_all [FVal.add, FVal.Nonneg]
  exact add_nonneg hs ha

theorem FVal.le_add_self {s a : FVal} (hs : s.Nonneg) (ha : a.Nonneg) :
    FVal.Fle s (FVal.add s a) := by
  cases s <;> cases a <;> simp_all [FVal.add, FVal.Fle, FVal.Nonneg]

theorem amount_released_nonneg (cells : List Cell) (m b v : ℚ) (hv : 0 < v) :
    ∀ a ∈ amount_released cells m b v, a.Nonneg := by
  intro a ha
  simp only [amount_released, concs, List.map_map, List.mem_map, Function.comp] at ha
  obtain ⟨cell, -, rfl⟩ := ha
  have hc : (resolveClamped cell m b).Nonneg := FVal.pymax_nonneg _
  cases hcc : resolveClamped cell m b with
  | fin q =>
      rw [hcc] at hc
      simp only [FVal.Nonneg] at hc
      simpa [FVal.mul, FVal.Nonneg] using mul_nonneg hc hv.le
  | inf => simp [hcc, FVal.mul, hv, FVal.Nonneg]
  | ninf => rw [hcc] at hc; simp [FVal.Nonneg] at hc
  | nan => rw [hcc] at hc; simp [FVal.Nonneg] at hc

theorem chain_cons_cumsumFrom (l : List FVal) :
    ∀ acc, (∀ a ∈ l, a.Nonneg) → acc.Nonneg →
      List.Chain' FVal.Fle (acc :: cumsumFrom acc l) := by
  induction l with
  | nil => intro acc _ _; simp [cumsumFrom]
  | cons a as ih =>
      intro acc hmem hacc
      have hane : a.Nonneg := hmem a (List.mem_cons_self a as)
      have hrest : ∀ x ∈ as, x.Nonneg := fun x hx => hmem x (List.mem_cons_of_mem _ hx)
      have hstep : List.Chain' FVal.Fle
          (FVal.add acc a :: cumsumFrom (FVal.add acc a) as) :=
        ih _ hrest (FVal.nonneg_add hacc hane)
      cases a with
      | fin q => exact (List.chain'_cons.mpr ⟨FVal.le_add_self hacc hane, hstep⟩)
      | inf => exact (List.chain'_cons.mpr ⟨FVal.le_add_self hacc hane, hstep⟩)
      | ninf => simp [FVal.Nonneg] at hane
      | nan => simp [FVal.Nonneg] at hane

theorem cumsumFrom_getLast (l : List FVal) :
    ∀ acc, (∀ a ∈ l, a ≠ FVal.nan) → l ≠ [] →
      (cumsumFrom acc l).getLast? = some (l.foldl FVal.add acc) := by
  induction l with
  | nil => intro acc _ h; exact absurd rfl h
  | cons a as ih =>
      intro acc hmem _
      have ha : a ≠ FVal.nan := hmem a (List.mem_cons_self a as)
      cases as with
      | nil => cases a <;> simp_all [cumsumFrom]
      | cons a2 as2 =>
          have hrest : ∀ x ∈ a2 :: as2, x ≠ FVal.nan :=
            fun x hx => hmem x (List.mem_cons_of_mem _ hx)
          have htail : ∀ acc2 : FVal, (acc2 :: cumsumFrom acc2 (a2 :: as2)).getLast?
              = (cumsumFrom acc2 (a2 :: as2)).getLast? := by
            intro acc2
            have hne : cumsumFrom acc2 (a2 :: as2) ≠ [] := by
              apply List.ne_nil_of_length_pos
              rw [cumsumFrom_length]
              simp
            cases hcc : cumsumFrom acc2 (a2 :: as2) with
            | nil => exact absurd hcc hne
            | cons y ys => exact List.getLast?_cons_cons
          have hih := ih (FVal.add acc a) hrest (by simp)
          cases a with
          | fin q =>
              rw [show cumsumFrom acc (FVal.fin q :: a2 :: as2)
                  = FVal.add acc (FVal.fin q)
                    :: cumsumFrom (FVal.add acc (FVal.fin q)) (a2 :: as2) from rfl]
              rw [htail, hih]
              rfl
          | inf =>
              rw [show cumsumFrom acc (FVal.inf :: a2 :: as2)
                  = FVal.add acc FVal.inf
                    :: cumsumFrom (FVal.add acc FVal.inf) (a2 :: as2) from rfl]
              rw [htail, hih]
              rfl
          | ninf =>
              rw [show cumsumFrom acc (FVal.ninf :: a2 :: as2)
                  = FVal.add acc FVal.ninf
                    :: cumsumFrom (FVal.add acc FVal.ninf) (a2 :: as2) from rfl]
              rw [htail, hih]
              rfl
          | nan => exact absurd rfl ha

/-- C5: for every sample volume `v > 0`, every calibration model and every
readings sequence, the cumulative release series is non-decreasing in entry
order (in the IEEE order, with `+inf` above every finite value) and, when
the sequence is nonempty, its final entry is the sum of all the
amount-released values. -/
theorem C5_cumulative_monotone_final_is_sum
    (rows : List (Cell × Cell)) (m b v : ℚ) (hv : 0 < v) :
    List.Chain' FVal.Fle (cumulative_release (rows.map Prod.snd) m b v)
    ∧ (rows ≠ [] →
        (cumulative_release (rows.map Prod.snd) m b v).getLast?
          = some ((amount_released (rows.map Prod.snd) m b v).foldl
              FVal.add (FVal.fin 0))) := by
  have hnn := amount_released_nonneg (rows.map Prod.snd) m b v hv
  constructor
  · have hch := chain_cons_cumsumFrom
      (amount_released (rows.map Prod.snd) m b v) (FVal.fin 0) hnn
      (by simp [FVal.Nonneg])
    exact hch.tail
  · intro hne
    apply cumsumFrom_getLast
    · exact fun a ha => (hnn a ha).ne_nan
    · apply List.ne_nil_of_length_pos
      rw [amount_released_length]
      simpa [List.length_pos] using hne

theorem C5_witness :
    List.Chain' FVal.Fle
      (cumulative_release ([((some 0 : Cell), (some 1 : Cell))].map Prod.snd) 1 0 25)
    ∧ (cumulative_release ([((some 0 : Cell), (some 1 : Cell))].map Prod.snd) 1 0 25).getLast?
        = some ((amount_released ([((some 0 : Cell), (some 1 : Cell))].map Prod.snd) 1 0 25).foldl
            FVal.add (FVal.fin 0)) :=
  ⟨(C5_cumulative_monotone_final_is_sum [(some 0, some 1)] 1 0 25 (by norm_num)).1,
   (C5_cumulative_monotone_final_is_sum [(some 0, some 1)] 1 0 25 (by norm_num)).2
     (by simp)⟩

theorem Fle_fin_zero_pymax (x : FVal) : FVal.Fle (FVal.fin 0) (FVal.pymax x) := by
  cases x with
  | fin q => by_cases h : 0 < q <;> simp [FVal.pymax, h, FVal.Fle, le_of_lt]
  | inf => simp [FVal.pymax, FVal.Fle]
  | ninf => simp [FVal.pymax, FVal.Fle]
  | nan => simp [FVal.pymax, FVal.Fle]

/-- C6: with a positive slope the resolved (clamped) concentration is
monotone non-decreasing in the absorbance, and for every absorbance cell and
every slope and intercept the resolved concentration is never below zero. -/
theorem C6_resolve_monotone_and_nonneg :
    (∀ m b a1 a2 : ℚ, 0 < m → a1 ≤ a2 →
        FVal.Fle (resolveClamped (some a1) m b) (resolveClamped (some a2) m b))
    ∧ ∀ (m b : ℚ) (a : Cell), FVal.Fle (FVal.fin 0) (resolveClamped a m b) := by
  constructor
  · intro m b a1 a2 hm h12
    have hm0 : m ≠ 0 := ne_of_gt hm
    have e1 : resolveClamped (some a1) m b = FVal.pymax (FVal.fin ((a1 - b) / m)) := by
      simp [resolveClamped, resolveRaw, toNumeric, FVal.sub, FVal.div, hm0]
    have e2 : resolveClamped (some a2) m b = FVal.pymax (FVal.fin ((a2 - b) / m)) := by
      simp [resolveClamped, resolveRaw, toNumeric, FVal.sub, FVal.div, hm0]
    have hq : (a1 - b) / m ≤ (a2 - b) / m :=
      (div_le_div_iff_of_pos_right hm).mpr (by linarith)
    rw [e1, e2]
    simp only [FVal.pymax]
    split_ifs <;> simp [FVal.Fle] <;> linarith
  · intro m b a
    exact Fle_fin_zero_pymax (resolveRaw a m b)

theorem C6_witness :
    FVal.Fle (resolveClamped (some 2) 1 0) (resolveClamped (some 3) 1 0)
    ∧ FVal.Fle (FVal.fin 0) (resolveClamped (some (-5)) 1 0) :=
  ⟨C6_resolve_monotone_and_nonneg.1 1 0 2 3 (by norm_num) (by norm_num),
   C6_resolve_monotone_and_nonneg.2 1 0 (some (-5))⟩

/-- C9 counterexample: the claim says a sample set with two identical labels
makes assembly signal `DuplicateSampleLabel` and produce no comparison set.
The comparison step has no label validation at all: handed two entries both
labelled `"A"`, it produces the comparison set containing both, unchanged. -/
theorem C9_counterexample_duplicate_labels_pass_through :
    ¬ (([("A", ([] : List ReleaseRecord)), ("A", [])].map Prod.fst).Nodup)
    ∧ comparativePlot [("A", []), ("A", [])] = some [("A", []), ("A", [])] := by
  constructor
  · simp
  · rfl

theorem sampleLabel_range_nodup : ∀ n < 10, ((List.range n).map sampleLabel).Nodup := by
  decide

/-- C9 (amended): duplicate labels cannot arise in the program — samples are
labelled by position as `"Sample 1" … "Sample n"` with `n ≤ 9`, and those
labels are pairwise distinct; no duplicate-label condition exists in the
code, and the comparison step consumes whatever list it is handed. -/
theorem C9_amended_labels_always_distinct
    (tables : List (List (Cell × Cell))) (m b v : ℚ) (h : tables.length ≤ 9) :
    ((all_cumulative tables m b v).map Prod.fst).Nodup := by
  have hmap : (all_cumulative tables m b v).map Prod.fst
      = (List.range tables.length).map sampleLabel := by
    simp [all_cumulative, List.map_map, Function.comp]
  rw [hmap]
  exact sampleLabel_range_nodup tables.length (by omega)

theorem C9_amended_witness :
    ((all_cumulative [[], []] 1 0 25).map Prod.fst).Nodup :=
  C9_amended_labels_always_distinct [[], []] 1 0 25 (by norm_num)

/-- The calibration table of the specification scenario:
`{(0,0.00),(10,0.05),(25,0.12),(50,0.25),(100,0.50),(200,1.00)}`. -/
def calibTable : List (Cell × Cell) :=
  [(some 0, some 0), (some 10, some (1/20)), (some 25, some (3/25)),
   (some 50, some (1/4)), (some 100, some (1/2)), (some 200, some 1)]

/-- The sample readings of the specification scenario:
`[(0,0.00),(1,0.00),(2,0.00),(4,0.01),(8,0.02),(12,0.03),(24,0.05)]`. -/
def sampleRows : List (Cell × Cell) :=
  [(some 0, some 0), (some 1, some 0), (some 2, some 0), (some 4, some (1/100)),
   (some 8, some (2/100)), (some 12, some (3/100)), (some 24, some (5/100))]

/-- C8 counterexample: on the scenario inputs the exact fit is slope
`4284/855625 ≈ 0.0050069`, intercept `−218/171125 ≈ −0.0012739`, and the
final cumulative release is `3391625/5712 ≈ 593.77` — not the claimed
`550` (the claim's arithmetic assumed slope exactly `0.005` and intercept
exactly `0`). -/
theorem C8_counterexample_final_not_550 :
    fitStd calibTable
        = FitOutcome.fitted (4284/855625) (-218/171125) (24470208/24470875)
    ∧ (cumulative_release (sampleRows.map Prod.snd) (4284/855625) (-218/171125)
        sample_volume).getLast? = some (FVal.fin (3391625/5712))
    ∧ (3391625/5712 : ℚ) ≠ 550 := by
  refine ⟨?_, ?_, by norm_num⟩
  · norm_num [fitStd, calibTable, x_std, y_std, linregress, slopeOf, interceptOf, r2Of,
      dxQ, dxyQ, List.headI, List.filterMap, min_def]
  · norm_num [sampleRows, sample_volume, cumulative_release, cumsum, cumsumFrom,
      amount_released, concs, resolveClamped, resolveRaw, toNumeric, FVal.sub, FVal.div,
      FVal.pymax, FVal.mul, FVal.add]

/-- C8 (amended): the scenario fit gives slope `4284/855625` (within `10⁻⁵`
of the claimed `0.005`), intercept `−218/171125` (within `0.002` of the
claimed `0`), `r² > 0.99`; the concentrations are
`[0.254…, 0.254…, 0.254…, 2.251…, 4.249…, 6.246…, 10.241…]`, each within
`0.26` of the claim's `[0,0,0,2,4,6,10]`, and the final cumulative release
is `3391625/5712 ≈ 593.77`, not `550`. -/
theorem C8_amended_exact_scenario_values :
    fitStd calibTable
        = FitOutcome.fitted (4284/855625) (-218/171125) (24470208/24470875)
    ∧ |(4284/855625 : ℚ) - 5/1000| < 1/100000
    ∧ |(-218/171125 : ℚ) - 0| < 1/500
    ∧ (99/100 : ℚ) < 24470208/24470875
    ∧ concs (sampleRows.map Prod.snd) (4284/855625) (-218/171125)
        = [FVal.fin (545/2142), FVal.fin (545/2142), FVal.fin (545/2142),
           FVal.fin (38585/17136), FVal.fin (4045/952), FVal.fin (107035/17136),
           FVal.fin (58495/5712)]
    ∧ |(545/2142 : ℚ) - 0| ≤ 26/100
    ∧ |(38585/17136 : ℚ) - 2| ≤ 26/100
    ∧ |(4045/952 : ℚ) - 4| ≤ 26/100
    ∧ |(107035/17136 : ℚ) - 6| ≤ 26/100
    ∧ |(58495/5712 : ℚ) - 10| ≤ 26/100
    ∧ (cumulative_release (sampleRows.map Prod.snd) (4284/855625) (-218/171125)
        sample_volume).getLast? = some (FVal.fin (3391625/5712))
    ∧ |(3391625/5712 : ℚ) - 59377/100| < 1/50 := by
  refine ⟨?_, by norm_num [abs_le, abs_lt], by norm_num [abs_lt], by norm_num, ?_,
    by norm_num [abs_le], by norm_num [abs_le], by norm_num [abs_le],
    by norm_num [abs_le], by norm_num [abs_le], ?_, by norm_num [abs_lt]⟩
  · norm_num [fitStd, calibTable, x_std, y_std, linregress, slopeOf, interceptOf, r2Of,
      dxQ, dxyQ, List.headI, List.filterMap, min_def]
  · norm_num [sampleRows, concs, resolveClamped, resolveRaw, toNumeric, FVal.sub,
      FVal.div, FVal.pymax]
  · norm_num [sampleRows, sample_volume, cumulative_release, cumsum, cumsumFrom,
      amount_released, concs, resolveClamped, resolveRaw, toNumeric, FVal.sub, FVal.div,
      FVal.pymax, FVal.mul, FVal.add]

/-- C10: the result table carries the raw time and absorbance cells of the
input readings through unchanged and in the same row order; only the
concentration, amount and cumulative columns are computed. -/
theorem C10_raw_columns_carried_through (rows : List (Cell × Cell)) (m b v : ℚ) :
    (result_df rows m b v).map (fun r => (r.time, r.absorbance)) = rows :=
  result_df_map_timeAbs rows m b v

/-! ### Least-squares optimality (claim C7) -/

theorem sumsq_nonneg (l : List ℚ) : 0 ≤ (l.map fun a => a * a).sum := by
  induction l with
  | nil => simp
  | cons x t ih =>
      simp only [List.map_cons, List.sum_cons]
      exact add_nonneg (mul_self_nonneg x) ih

theorem var_key_zero (n X S x : ℚ) (hn : 0 ≤ n) (hX : 0 ≤ X) (hcs : S * S ≤ n * X) :
    0 ≤ (n + 1) * (x * x + X) - (x + S) * (x + S) := by
  rcases eq_or_lt_of_le hn with h | h
  · have hn0 : n = 0 := h.symm
    subst hn0
    have hS : S = 0 :=
      mul_self_eq_zero.mp (le_antisymm (by simpa using hcs) (mul_self_nonneg S))
    subst hS
    nlinarith [hX]
  · nlinarith [sq_nonneg (n * x - S), mul_nonneg h.le (sub_nonneg.mpr hcs),
      sub_nonneg.mpr hcs]

theorem dxQ_nonneg (l : List ℚ) : 0 ≤ dxQ l := by
  induction l with
  | nil => simp [dxQ]
  | cons x t ih =>
      have hX := sumsq_nonneg t
      have hcs : t.sum * t.sum ≤ (t.length : ℚ) * (t.map fun a => a * a).sum := by
        simp only [dxQ] at ih; linarith
      have hkey := var_key_zero (t.length : ℚ) ((t.map fun a => a * a).sum) t.sum x
        (by positivity) hX hcs
      simp only [dxQ, List.length_cons, List.map_cons, List.sum_cons]
      push_cast
      linarith [hkey]

theorem var_key_pos (n X S x y : ℚ) (hn : 0 ≤ n) (hX : 0 ≤ X) (hcs : S * S ≤ n * X)
    (hxy : x ≠ y) :
    0 < (n + 2) * (x * x + (y * y + X)) - (x + (y + S)) * (x + (y + S)) := by
  have h2 : 0 < (x - y) * (x - y) := mul_self_pos.mpr (sub_ne_zero.mpr hxy)
  rcases eq_or_lt_of_le hn with h | h
  · have hn0 : n = 0 := h.symm
    subst hn0
    have hS : S = 0 :=
      mul_self_eq_zero.mp (le_antisymm (by simpa using hcs) (mul_self_nonneg S))
    subst hS
    nlinarith [h2, hX]
  · nlinarith [h2, sq_nonneg (n * x - S), sq_nonneg (n * y - S),
      sub_nonneg.mpr hcs, mul_nonneg h.le (sub_nonneg.mpr hcs), mul_pos h h2]

theorem dxQ_perm {l l2 : List ℚ} (h : l.Perm l2) : dxQ l = dxQ l2 := by
  simp [dxQ, h.length_eq, h.sum_eq, (h.map fun a => a * a).sum_eq]

theorem dxQ_pos {l : List ℚ} {a c : ℚ} (ha : a ∈ l) (hc : c ∈ l) (hac : a ≠ c) :
    0 < dxQ l := by
  have p1 : l.Perm (a :: l.erase a) := List.perm_cons_erase ha
  have hc1 : c ∈ l.erase a := (List.mem_erase_of_ne (Ne.symm hac)).mpr hc
  have p2 : (l.erase a).Perm (c :: (l.erase a).erase c) := List.perm_cons_erase hc1
  have p3 : l.Perm (a :: c :: (l.erase a).erase c) := p1.trans (p2.cons a)
  rw [dxQ_perm p3]
  have hX := sumsq_nonneg ((l.erase a).erase c)
  have hcs : ((l.erase a).erase c).sum * ((l.erase a).erase c).sum
      ≤ (((l.erase a).erase c).length : ℚ)
        * (((l.erase a).erase c).map fun q => q * q).sum := by
    have := dxQ_nonneg ((l.erase a).erase c)
    simp only [dxQ] at this
    linarith
  have hkey := var_key_pos (((l.erase a).erase c).length : ℚ)
    ((((l.erase a).erase c).map fun q => q * q).sum) ((l.erase a).erase c).sum a c
    (by positivity) hX hcs hac
  simp only [dxQ, List.length_cons, List.map_cons, List.sum_cons]
  push_cast
  linarith [hkey]

theorem ssr_expand (ps : List (ℚ × ℚ)) (m b : ℚ) :
    (ps.map fun p => (p.2 - (m * p.1 + b)) * (p.2 - (m * p.1 + b))).sum
      = (ps.map fun p => p.2 * p.2).sum
        - 2 * m * ((ps.map fun p => p.1 * p.2).sum)
        - 2 * b * ((ps.map fun p => p.2).sum)
        + m * m * ((ps.map fun p => p.1 * p.1).sum)
        + 2 * (m * b) * ((ps.map fun p => p.1).sum)
        + (ps.length : ℚ) * (b * b) := by
  induction ps with
  | nil => simp
  | cons p t ih =>
      simp only [List.map_cons, List.sum_cons, List.length_cons]
      rw [ih]
      push_cast
      ring

theorem ols_key (S1 A B C D E m b s i : ℚ) (hS1 : 0 < S1) (hd : 0 < S1 * C - A * A)
    (hs : s = (S1 * E - A * B) / (S1 * C - A * A)) (hi : i = (B - s * A) / S1) :
    D - 2 * s * E - 2 * i * B + s * s * C + 2 * (s * i) * A + S1 * (i * i)
      ≤ D - 2 * m * E - 2 * b * B + m * m * C + 2 * (m * b) * A + S1 * (b * b) := by
  have hd0 : S1 * C - A * A ≠ 0 := ne_of_gt hd
  have hS10 : S1 ≠ 0 := ne_of_gt hS1
  rw [← sub_nonneg]
  have hkey : (D - 2 * m * E - 2 * b * B + m * m * C + 2 * (m * b) * A + S1 * (b * b))
      - (D - 2 * s * E - 2 * i * B + s * s * C + 2 * (s * i) * A + S1 * (i * i))
      = ((S1 * C - A * A) * ((S1 * b + m * A - B) * (S1 * b + m * A - B))
         + ((S1 * C - A * A) * m - (S1 * E - A * B))
           * ((S1 * C - A * A) * m - (S1 * E - A * B)))
        / (S1 * (S1 * C - A * A)) := by
    subst hi
    subst hs
    field_simp
    ring
  rw [hkey]
  apply div_nonneg
  · have t1 : 0 ≤ (S1 * C - A * A) * ((S1 * b + m * A - B) * (S1 * b + m * A - B)) :=
      mul_nonneg hd.le (mul_self_nonneg _)
    have t2 : 0 ≤ ((S1 * C - A * A) * m - (S1 * E - A * B))
        * ((S1 * C - A * A) * m - (S1 * E - A * B)) := mul_self_nonneg _
    linarith
  · exact (mul_pos hS1 hd).le

/-- C7: on paired columns with at least two distinct concentration values the
fit succeeds and returns the ordinary-least-squares line — no other line has
a smaller sum of squared residuals — and the reported r² lies in `[0, 1]`. -/
theorem C7_fit_minimizes_ssr_and_r2_in_unit_interval
    (xs ys : List ℚ) (hlen : xs.length = ys.length)
    (hdist : ∃ a ∈ xs, ∃ c ∈ xs, a ≠ c) :
    ∃ m b r2, linregress xs ys = some (m, b, r2)
      ∧ (∀ m2 b2 : ℚ, SSR xs ys m b ≤ SSR xs ys m2 b2)
      ∧ 0 ≤ r2 ∧ r2 ≤ 1 := by
  obtain ⟨a, ha, c, hc, hac⟩ := hdist
  have hxpos : 0 < xs.length := List.length_pos.mpr (by rintro rfl; simp at ha)
  have hg1 : ¬(xs.length = 0 ∨ ys.length = 0) := by
    push_neg
    constructor <;> omega
  have hg2 : ¬ xs.length ≠ ys.length := by simp [hlen]
  have hg3 : ¬(1 < xs.length ∧ ∀ q ∈ xs, q = xs.headI) := by
    rintro ⟨-, hall⟩
    exact hac ((hall a ha).trans (hall c hc).symm)
  have hlin : linregress xs ys = some (slopeOf xs ys, interceptOf xs ys, r2Of xs ys) := by
    simp only [linregress]
    rw [if_neg hg1, if_neg hg2, if_neg hg3]
  have hdx : 0 < dxQ xs := dxQ_pos ha hc hac
  have hn : 0 < (xs.length : ℚ) := by positivity
  refine ⟨slopeOf xs ys, interceptOf xs ys, r2Of xs ys, hlin, ?_, ?_, ?_⟩
  · intro m2 b2
    have hfst : (xs.zip ys).map Prod.fst = xs := List.map_fst_zip xs ys (le_of_eq hlen)
    have hsnd : (xs.zip ys).map Prod.snd = ys := List.map_snd_zip xs ys (ge_of_eq hlen)
    have hlzip : ((xs.zip ys).length : ℚ) = (xs.length : ℚ) := by
      rw [List.length_zip, hlen, min_self]
    have e1 : ((xs.zip ys).map fun p => p.1).sum = xs.sum := by
      rw [show (fun p : ℚ × ℚ => p.1) = Prod.fst from rfl, hfst]
    have e2 : ((xs.zip ys).map fun p => p.2).sum = ys.sum := by
      rw [show (fun p : ℚ × ℚ => p.2) = Prod.snd from rfl, hsnd]
    have e3 : ((xs.zip ys).map fun p => p.1 * p.1).sum = (xs.map fun q => q * q).sum := by
      rw [show (fun p : ℚ × ℚ => p.1 * p.1) = (fun q => q * q) ∘ Prod.fst from rfl,
        ← List.map_map, hfst]
    have e4 : ((xs.zip ys).map fun p => p.2 * p.2).sum = (ys.map fun q => q * q).sum := by
      rw [show (fun p : ℚ × ℚ => p.2 * p.2) = (fun q => q * q) ∘ Prod.snd from rfl,
        ← List.map_map, hsnd]
    unfold SSR
    rw [ssr_expand, ssr_expand, hlzip, e1, e2, e3, e4]
    apply ols_key (xs.length : ℚ) xs.sum ys.sum ((xs.map fun q => q * q).sum)
      ((ys.map fun q => q * q).sum) (((xs.zip ys).map fun p => p.1 * p.2).sum)
      m2 b2 (slopeOf xs ys) (interceptOf xs ys) hn
    · simpa [dxQ] using hdx
    · simp [slopeOf, dxyQ, dxQ]
    · simp [interceptOf]
  · unfold r2Of
    split_ifs with h
    · exact le_refl 0
    · push_neg at h
      have hdy : 0 < dxQ ys := lt_of_le_of_ne (dxQ_nonneg ys) (Ne.symm h.2)
      exact le_min (by norm_num) (div_nonneg (mul_self_nonneg _) (mul_pos hdx hdy).le)
  · unfold r2Of
    split_ifs with h
    · norm_num
    · exact min_le_left _ _

theorem C7_witness :
    ∃ m b r2, linregress [0, 1] [0, 1] = some (m, b, r2)
      ∧ (∀ m2 b2 : ℚ, SSR [0, 1] [0, 1] m b ≤ SSR [0, 1] [0, 1] m2 b2)
      ∧ 0 ≤ r2 ∧ r2 ≤ 1 :=
  C7_fit_minimizes_ssr_and_r2_in_unit_interval [0, 1] [0, 1] rfl
    ⟨0, by norm_num, 1, by norm_num, by norm_num⟩

end ReleaseData
